import Mathlib

/-!
Verification of the role-structure extraction and tree-rendering algorithm of
AnsibleRoleDoc (`_analyze_structure` and `_format_structure`, identical up to
the path separator in `ansible-doc-generator.py` and `ansible-role-generator.py`).

The Python code represents the tree as a nested `dict`: a key is either a
directory name mapped to a nested `dict`, or the sentinel key `"__files__"`
mapped to a `list` of file names.  We embed that value space as `PyVal`
(a Python `dict` with insertion-ordered string keys, or a Python `list` of
strings).  Operations that would raise a Python exception (`TypeError` /
`AttributeError` on the sentinel-collision paths, see `insertFile`) are
modelled with `Option`, `none` meaning "raises".
-/

mutual

/-- A Python value occurring in the structure: a list of strings or a dict. -/
inductive PyVal : Type where
  | vlist : List String → PyVal
  | vdict : Entries → PyVal
  deriving DecidableEq

/-- The bindings of a Python dict, in insertion order. -/
inductive Entries : Type where
  | nil : Entries
  | cons : String → PyVal → Entries → Entries
  deriving DecidableEq

end

/-- Dict lookup: value of the first binding of `key` (`d[key]` / `key in d`). -/
def Entries.lookup : Entries → String → Option PyVal
  | .nil, _ => none
  | .cons k v r, key => if k = key then some v else r.lookup key

/-- Dict assignment to an existing key: replaces the first binding in place
(Python keeps the key's position in insertion order). -/
def Entries.update : Entries → String → PyVal → Entries
  | .nil, _, _ => .nil
  | .cons k v r, key, w => if k = key then .cons k w r else .cons k v (r.update key w)

/-- Dict assignment to a fresh key: appends the binding at the end
(Python puts a new key last in insertion order). -/
def Entries.push : Entries → String → PyVal → Entries
  | .nil, key, w => .cons key w .nil
  | .cons k v r, key, w => .cons k v (r.push key w)

/-- The keys of a dict, in insertion order. -/
def Entries.keys : Entries → List String
  | .nil => []
  | .cons k _ r => k :: r.keys

/-- Python truthiness of a structure value (`if value:`): nonempty list/dict. -/
def PyVal.truthy : PyVal → Bool
  | .vlist xs => !xs.isEmpty
  | .vdict es => match es with
    | .nil => false
    | .cons _ _ _ => true

/-- Python `str.split(sep)` on the character list (always at least one group). -/
def splitChars (sep : Char) : List Char → List (List Char)
  | [] => [[]]
  | c :: rest =>
      match splitChars sep rest with
      | [] => [[]]
      | g :: gs => if c = sep then [] :: g :: gs else (c :: g) :: gs

/-- Python `file_path.split('/')` (resp. `split(os.sep)`). -/
def pySplit (s : String) (sep : Char) : List String :=
  (splitChars sep s.toList).map (fun cs => String.mk cs)

/-- Python string `<`: lexicographic comparison of code points. -/
def charListLt : List Char → List Char → Bool
  | [], [] => false
  | [], _ :: _ => true
  | _ :: _, [] => false
  | a :: as, b :: bs => if a < b then true else if b < a then false else charListLt as bs

/-- Python string `<` on `String`. -/
def pyStrLt (a b : String) : Bool := charListLt a.toList b.toList

/-- Insert a string into an already sorted list (ascending by `pyStrLt`). -/
def insertSorted (x : String) : List String → List String
  | [] => [x]
  | y :: ys => if pyStrLt y x then y :: insertSorted x ys else x :: y :: ys

/-- Python `sorted` on a list of strings (any correct sort gives the same list,
since equal strings are indistinguishable). -/
def sortStrings : List String → List String
  | [] => []
  | x :: xs => insertSorted x (sortStrings xs)

/-- Last loop iteration of `_analyze_structure` when the final segment `p` is
nonempty: add `p` to the `"__files__"` entry of the current level.
Python raises here (hence `none`) when the current level is a list (string
indexing of a list: `TypeError`) or its `"__files__"` key holds a dict
(`dict` has no `append`: `AttributeError`). -/
def insertFile : PyVal → String → Option PyVal
  | .vdict es, p =>
      match es.lookup "__files__" with
      | none => some (.vdict (es.push "__files__" (.vlist [p])))
      | some (.vlist fs) => some (.vdict (es.update "__files__" (.vlist (fs ++ [p]))))
      | some (.vdict _) => none
  | .vlist _, _ => none

/-- The `for i, part in enumerate(parts)` loop of `_analyze_structure`,
walking `cur` (= `current_level`).  The file test `i == len(parts) - 1` is
positional on the raw split, so the pattern on the remaining segments decides
it; empty segments are skipped.  The directory branch on a list value raises
in Python (`TypeError` on `current_level[part]`), hence `none`. -/
def insertLoop : PyVal → List String → Option PyVal
  | cur, [] => some cur
  | cur, [p] => if p = "" then some cur else insertFile cur p
  | cur, p :: q :: rest =>
      if p = "" then insertLoop cur (q :: rest)
      else
        match cur with
        | .vdict es =>
            match es.lookup p with
            | none => (insertLoop (.vdict .nil) (q :: rest)).map (fun sub => .vdict (es.push p sub))
            | some child => (insertLoop child (q :: rest)).map (fun sub => .vdict (es.update p sub))
        | .vlist _ => none

/-- The prefix strip of `_analyze_structure`:
`if len(parts) > 1 and parts[0] == self.role_name: parts = parts[1:]`. -/
def stripRoot (roleName : String) (parts : List String) : List String :=
  match parts with
  | p0 :: q :: rest => if p0 = roleName then q :: rest else parts
  | _ => parts

/-- `_analyze_structure(file_list)` with role name `roleName`, starting from
the empty dict; `none` when Python raises. -/
def analyzeStructure (roleName : String) (fileList : List String) : Option PyVal :=
  fileList.foldlM (fun st path => insertLoop st (stripRoot roleName (pySplit path '/'))) (.vdict .nil)

/-- The file names drawn from the popped `"__files__"` value in
`_format_structure`: the default `[]`, the list itself, or — when the sentinel
holds a dict — its keys (iterating a Python dict yields its keys). -/
def filesNames : Option PyVal → List String
  | none => []
  | some (.vlist fs) => fs
  | some (.vdict es) => es.keys

/-- Python `"\n".join(lines)`. -/
def joinStr : List String → String
  | [] => ""
  | [a] => a
  | a :: b :: t => a ++ "\n" ++ joinStr (b :: t)

/-- Whether a directory entry with remaining sibling entries `r` is the last of
`items = list(structure.items())`: `popped` records whether the single
`"__files__"` binding was already removed by the `pop` (so a not-yet-popped
trailing `"__files__"` binding does not count as a further item). -/
def endOfItems : Bool → Entries → Bool
  | true, .nil => true
  | true, .cons _ _ _ => false
  | false, .nil => true
  | false, .cons k _ .nil => k = "__files__"
  | false, .cons _ _ (.cons _ _ _) => false

/-- The second loop of `_format_structure`: one line per (already sorted) file
name, `└── ` on the last one, bare names at the first level (`prefix` empty). -/
def mkFileLines (fs : List String) (pfx ind : String) : List String :=
  match fs with
  | [] => []
  | [f] => [if pfx = "" then f else ind ++ "└── " ++ f]
  | f :: g :: t => (if pfx = "" then f else ind ++ "├── " ++ f) :: mkFileLines (g :: t) pfx ind

mutual

/-- `_format_structure(structure, prefix, is_last, indent)`.  Returns the
joined output string together with the structure as left behind by the call
(the Python code destructively pops every visited `"__files__"` binding).
`none` models the `TypeError`/`AttributeError` Python raises when `structure`
is a list.  The `is_last` argument is never read by the body. -/
def formatStructure : PyVal → String → Bool → String → Option (String × PyVal)
  | .vlist _, _, _, _ => none
  | .vdict es, pfx, _isLast, ind =>
      match formatDirs es false ((filesNames (es.lookup "__files__")).isEmpty) pfx ind with
      | none => none
      | some (dirLines, es1) =>
          some (joinStr (dirLines ++ mkFileLines (sortStrings (filesNames (es.lookup "__files__"))) pfx ind),
                .vdict es1)

/-- The directory loop of `_format_structure`, walking the dict bindings in
insertion order.  The first `"__files__"` binding is the popped one: it is
skipped and removed from the resulting dict (`popped` tracks this).
`fsEmpty` is `not files`, used in `is_last_dir`. -/
def formatDirs : Entries → Bool → Bool → String → String → Option (List String × Entries)
  | .nil, _, _, _, _ => some ([], .nil)
  | .cons k v r, popped, fsEmpty, pfx, ind =>
      if popped = false ∧ k = "__files__" then
        formatDirs r true fsEmpty pfx ind
      else
        let isLastDir := endOfItems popped r && fsEmpty
        let line := if pfx = "" then k ++ "/"
                    else ind ++ (if isLastDir then "└── " else "├── ") ++ k ++ "/"
        let newInd := if pfx = "" then "    "
                      else ind ++ (if isLastDir then "    " else "│   ")
        match (if v.truthy then
                 (formatStructure v (pfx ++ "/" ++ k) isLastDir newInd).map
                   (fun sv => ([sv.1], sv.2))
               else some ([], v)) with
        | none => none
        | some (subLines, v1) =>
            match formatDirs r popped fsEmpty pfx ind with
            | none => none
            | some (restLines, r1) =>
                some (line :: subLines ++ restLines, .cons k v1 r1)

end

/-- The call the document generators make: `self._format_structure(structure)`
with the default arguments `prefix=""`, `is_last=True`, `indent=""`. -/
def renderStructure (s : PyVal) : Option (String × PyVal) :=
  formatStructure s "" true ""

/-! Observation functions used to state claims about built trees. -/

/-- Follow a chain of directory names from a node. -/
def subAt : PyVal → List String → Option PyVal
  | t, [] => some t
  | .vdict es, d :: ds =>
      match es.lookup d with
      | some v => subAt v ds
      | none => none
  | .vlist _, _ :: _ => none

/-- The child-directory names of the node reached by `ds` (every key except
the `"__files__"` sentinel), in insertion order. -/
def dirsAt (t : PyVal) (ds : List String) : List String :=
  match subAt t ds with
  | some (.vdict es) => es.keys.filter (fun k => k ≠ "__files__")
  | _ => []

/-- The file names of the node reached by `ds` (the sentinel's list, in
insertion order). -/
def filesAt (t : PyVal) (ds : List String) : List String :=
  match subAt t ds with
  | some (.vdict es) =>
      match es.lookup "__files__" with
      | some (.vlist fs) => fs
      | _ => []
  | _ => []

/-! Claim theorems on concrete inputs. -/

/-- C1: building a tree from `["a/b/file1.txt", "a/c/file2.txt", "root.txt"]`
with root name `""` and rendering it produces exactly the six lines
`a/`, `    ├── b/`, `    │   └── file1.txt`, `    └── c/`,
`        └── file2.txt`, `root.txt` in this order — first-level entries bare,
nested entries carrying the branch glyphs and 4-character indent blocks. -/
theorem C1_round_trip :
    (analyzeStructure "" ["a/b/file1.txt", "a/c/file2.txt", "root.txt"]).bind
      (fun t => (renderStructure t).map Prod.fst) =
    some (joinStr ["a/", "    ├── b/", "    │   └── file1.txt", "    └── c/",
                   "        └── file2.txt", "root.txt"]) := by
  decide

/-- C2: the tree builder is not total.  On the input paths
`["__files__/x", "y"]` (root name `""`) the first path stores a dict under
the sentinel key `"__files__"`, and the second path then calls `.append` on
that dict — an `AttributeError` in Python, `none` in the model.  The claim
says no input sequence raises. -/
theorem C2_sentinel_collision_raises :
    analyzeStructure "" ["__files__/x", "y"] = none ∧
    analyzeStructure "" ["other/x", "y"] ≠ none := by
  decide

/-- C3: rendering is not idempotent because `_format_structure` destructively
pops the `"__files__"` binding.  For the tree built from `["a"]`, the first
render returns `"a"` and leaves behind the emptied dict; rendering the
structure it left behind returns `""` instead of `"a"`. -/
theorem C3_render_mutates :
    analyzeStructure "" ["a"] = some (.vdict (.cons "__files__" (.vlist ["a"]) .nil)) ∧
    renderStructure (.vdict (.cons "__files__" (.vlist ["a"]) .nil)) =
      some ("a", .vdict .nil) ∧
    renderStructure (.vdict .nil) = some ("", .vdict .nil) ∧
    ("" : String) ≠ "a" := by
  decide

/-- C5 counterexample: the files collection does not behave as a set.  The
duplicate input `["a.txt", "a.txt"]` stores `"a.txt"` twice (the code appends
to a list) and renders two identical output lines, where the claim requires a
single stored entry and a single line. -/
theorem C5_counterexample :
    analyzeStructure "" ["a.txt", "a.txt"] =
      some (.vdict (.cons "__files__" (.vlist ["a.txt", "a.txt"]) .nil)) ∧
    filesAt (.vdict (.cons "__files__" (.vlist ["a.txt", "a.txt"]) .nil)) [] ≠ ["a.txt"] ∧
    (renderStructure (.vdict (.cons "__files__" (.vlist ["a.txt", "a.txt"]) .nil))).map Prod.fst =
      some (joinStr ["a.txt", "a.txt"]) := by
  decide

/-- C6 counterexample: directories and files are not namespace-disjoint.
Building `["a", "a/b"]` yields a root node where `"a"` is simultaneously a
child-directory key and a stored file name, where the claim requires the
conflicting file entry to be dropped. -/
theorem C6_counterexample :
    analyzeStructure "" ["a", "a/b"] =
      some (.vdict (.cons "__files__" (.vlist ["a"])
        (.cons "a" (.vdict (.cons "__files__" (.vlist ["b"]) .nil)) .nil))) ∧
    "a" ∈ dirsAt (.vdict (.cons "__files__" (.vlist ["a"])
        (.cons "a" (.vdict (.cons "__files__" (.vlist ["b"]) .nil)) .nil))) [] ∧
    "a" ∈ filesAt (.vdict (.cons "__files__" (.vlist ["a"])
        (.cons "a" (.vdict (.cons "__files__" (.vlist ["b"]) .nil)) .nil))) [] := by
  decide

/-- C6 amended: a name may appear both as a child directory and as a file of
the same node; nothing is dropped, and both are rendered (the directory with a
trailing slash and its subtree, the file as a bare entry). -/
theorem C6_both_kept :
    (analyzeStructure "" ["a", "a/b"]).bind (fun t => some (dirsAt t [], filesAt t [])) =
      some (["a"], ["a"]) ∧
    (analyzeStructure "" ["a", "a/b"]).bind (fun t => (renderStructure t).map Prod.fst) =
      some (joinStr ["a/", "    └── b", "a"]) := by
  decide

/-- C7 counterexample: a path consisting of the root name alone is not
stripped to nothing — the guard `len(parts) > 1` skips single-segment paths —
so building `["myrole"]` with root name `"myrole"` stores the file
`"myrole"` at the root instead of contributing no entry. -/
theorem C7_counterexample :
    analyzeStructure "myrole" ["myrole"] =
      some (.vdict (.cons "__files__" (.vlist ["myrole"]) .nil)) ∧
    analyzeStructure "myrole" ["myrole"] ≠ some (.vdict .nil) ∧
    filesAt (.vdict (.cons "__files__" (.vlist ["myrole"]) .nil)) [] = ["myrole"] := by
  decide

/-- C7 amended: the leading segment is stripped only when the split path has
at least two segments.  With two or more segments a leading root name is
dropped (so `["myrole/tasks/main.yml"]` and `["tasks/main.yml"]` build the
same tree under root name `"myrole"`); a path that is exactly the root name
becomes a file named like the root at the root node. -/
theorem C7_strip_only_multiseg :
    (∀ (rn q : String) (rest : List String), stripRoot rn (rn :: q :: rest) = q :: rest) ∧
    analyzeStructure "myrole" ["myrole/tasks/main.yml"] =
      analyzeStructure "myrole" ["tasks/main.yml"] ∧
    analyzeStructure "myrole" ["myrole"] =
      some (.vdict (.cons "__files__" (.vlist ["myrole"]) .nil)) := by
  refine ⟨fun rn q rest => by simp [stripRoot], by decide, by decide⟩

/-- C8 counterexample: the builder does not discard empty segments before
classifying the last remaining segment.  The trailing-separator path
`["dir/"]` produces the directory `"dir"` and no file at all, where the claim
requires the file `"dir"` at the parent node. -/
theorem C8_counterexample :
    analyzeStructure "" ["dir/"] = some (.vdict (.cons "dir" (.vdict .nil) .nil)) ∧
    filesAt (.vdict (.cons "dir" (.vdict .nil) .nil)) [] = [] ∧
    dirsAt (.vdict (.cons "dir" (.vdict .nil) .nil)) [] = ["dir"] := by
  decide

/-- C8 amended: segments are classified by position in the raw split — only
the final raw segment can be a file, and empty segments are skipped in place —
so `"dir/"` yields the empty directory `"dir"` (its final raw segment is
empty), `"a/b/"` yields nested empty directories, and a path of only empty
segments contributes nothing. -/
theorem C8_positional_classification :
    analyzeStructure "" ["dir/"] = some (.vdict (.cons "dir" (.vdict .nil) .nil)) ∧
    analyzeStructure "" ["a/b/"] =
      some (.vdict (.cons "a" (.vdict (.cons "b" (.vdict .nil) .nil)) .nil)) ∧
    analyzeStructure "" ["//"] = some (.vdict .nil) ∧
    analyzeStructure "" [""] = some (.vdict .nil) := by
  decide

/-- C9: tree shape is not permutation-invariant, because the builder can
raise on one ordering and succeed on the reordering.  `["x", "__files__//"]`
builds the tree `{"__files__": ["x"]}` (the second path walks into the files
list and then only skips empty segments), while the reversed list first stores
an empty dict under the sentinel and then raises trying to append `"x"` to
it. -/
theorem C9_order_dependent_failure :
    List.Perm ["x", "__files__//"] ["__files__//", "x"] ∧
    analyzeStructure "" ["x", "__files__//"] =
      some (.vdict (.cons "__files__" (.vlist ["x"]) .nil)) ∧
    analyzeStructure "" ["__files__//", "x"] = none := by
  decide

/-! Lookup lemmas for dict assignment. -/

theorem lookup_push : ∀ (es : Entries) (k : String) (w : PyVal) (key : String),
    (es.push k w).lookup key =
      match es.lookup key with
      | some v => some v
      | none => if k = key then some w else none
  | .nil, k, w, key => by simp [Entries.push, Entries.lookup]
  | .cons k0 v0 r, k, w, key => by
      by_cases h : k0 = key
      · simp [Entries.push, Entries.lookup, h]
      · simp [Entries.push, Entries.lookup, h, lookup_push r k w key]

theorem lookup_update : ∀ (es : Entries) (k : String) (w : PyVal) (key : String),
    (es.update k w).lookup key =
      match es.lookup key with
      | some v => if k = key then some w else some v
      | none => none
  | .nil, k, w, key => by simp [Entries.update, Entries.lookup]
  | .cons k0 v0 r, k, w, key => by
      by_cases hk : k0 = k
      · subst hk
        by_cases hkey : k0 = key
        · simp [Entries.update, Entries.lookup, hkey]
        · simp [Entries.update, Entries.lookup, hkey]
          cases hr : r.lookup key <;> simp [hr]
      · by_cases hkey : k0 = key
        · subst hkey
          simp [Entries.update, Entries.lookup, hk, Ne.symm hk]
        · simp [Entries.update, Entries.lookup, hk, hkey, lookup_update r k w key]

theorem mem_keys_iff_lookup : ∀ (es : Entries) (k : String),
    k ∈ es.keys ↔ ∃ v, es.lookup k = some v
  | .nil, k => by simp [Entries.keys, Entries.lookup]
  | .cons k0 v0 r, k => by
      by_cases h : k0 = k
      · subst h; simp [Entries.keys, Entries.lookup]
      · simp [Entries.keys, Entries.lookup, h, Ne.symm h, mem_keys_iff_lookup r k]

/-- C5 amended: adding a single-segment path `p` to a node appends `p` to the
node's files list, duplicate or not, and never raises as long as the sentinel
key does not hold a dict.  In particular a filename reaching the same node
twice is stored twice. -/
theorem C5_files_are_appended (es : Entries) (p : String) (hp : p ≠ "")
    (hs : ∀ ds, es.lookup "__files__" ≠ some (.vdict ds)) :
    ∃ es1, insertLoop (.vdict es) [p] = some (.vdict es1) ∧
      filesAt (.vdict es1) [] = filesAt (.vdict es) [] ++ [p] := by
  cases hl : es.lookup "__files__" with
  | none =>
      refine ⟨es.push "__files__" (.vlist [p]), ?_, ?_⟩
      · simp [insertLoop, insertFile, hp, hl]
      · simp [filesAt, subAt, hl, lookup_push, hl]
  | some v =>
      cases v with
      | vlist fs =>
          refine ⟨es.update "__files__" (.vlist (fs ++ [p])), ?_, ?_⟩
          · simp [insertLoop, insertFile, hp, hl]
          · simp [filesAt, subAt, hl, lookup_update]
      | vdict ds => exact absurd hl (hs ds)

/-- C5 witness: inserting `"a.txt"` into a node that already holds the file
`"a.txt"` succeeds and stores it a second time. -/
theorem C5_files_are_appended_witness :
    ∃ es1, insertLoop (.vdict (.cons "__files__" (.vlist ["a.txt"]) .nil)) ["a.txt"] =
        some (.vdict es1) ∧
      filesAt (.vdict es1) [] =
        filesAt (.vdict (.cons "__files__" (.vlist ["a.txt"]) .nil)) [] ++ ["a.txt"] :=
  C5_files_are_appended (.cons "__files__" (.vlist ["a.txt"]) .nil) "a.txt"
    (by decide)
    (by intro ds h; simp [Entries.lookup] at h)

/-! Monotonicity of the builder (C10). -/

/-- A structure value is contained in another: every list element is still
present, every dict key is still bound, and corresponding bindings are again
contained. -/
inductive SubVal : PyVal → PyVal → Prop where
  | list {xs ys : List String} : (∀ a, a ∈ xs → a ∈ ys) → SubVal (.vlist xs) (.vlist ys)
  | dict {es fs : Entries} :
      (∀ k, (es.lookup k).isSome → (fs.lookup k).isSome) →
      (∀ k v w, es.lookup k = some v → fs.lookup k = some w → SubVal v w) →
      SubVal (.vdict es) (.vdict fs)

mutual

theorem SubVal_refl : ∀ (t : PyVal), SubVal t t
  | .vlist _ => SubVal.list (fun _ h => h)
  | .vdict es => SubVal.dict (fun _ h => h)
      (fun k v w hv hw => by
        have hvw : v = w := Option.some.inj (hv.symm.trans hw)
        exact hvw ▸ SubValE_refl es k v hv)

theorem SubValE_refl : ∀ (es : Entries) (k : String) (v : PyVal),
    es.lookup k = some v → SubVal v v
  | .nil, _, _ => fun h => by simp [Entries.lookup] at h
  | .cons k0 v0 r, k, v => fun h => by
      by_cases hk : k0 = k
      · have hv : v0 = v := by simpa [Entries.lookup, hk] using h
        exact hv ▸ SubVal_refl v0
      · exact SubValE_refl r k v (by simpa [Entries.lookup, hk] using h)

end

/-- Each successful step of the `_analyze_structure` loop only ever adds
entries: the structure before the step is contained in the structure after. -/
theorem insert_mono : ∀ (parts : List String) (t t' : PyVal),
    insertLoop t parts = some t' → SubVal t t'
  | [], t, t' => fun h => by
      have ht : t = t' := by simpa [insertLoop] using h
      exact ht ▸ SubVal_refl t
  | [p], t, t' => fun h => by
      by_cases hp : p = ""
      · have ht : t = t' := by simpa [insertLoop, hp] using h
        exact ht ▸ SubVal_refl t
      · rw [show insertLoop t [p] = insertFile t p by simp [insertLoop, hp]] at h
        cases t with
        | vlist xs => simp [insertFile] at h
        | vdict es =>
            cases hl : es.lookup "__files__" with
            | none =>
                simp only [insertFile, hl] at h
                cases h
                refine SubVal.dict (fun k hk => ?_) (fun k v w hv hw => ?_)
                · rw [lookup_push]
                  cases hk2 : es.lookup k with
                  | none => rw [hk2] at hk; simp at hk
                  | some u => simp
                · rw [lookup_push, hv] at hw
                  have hvw : v = w := Option.some.inj hw
                  exact hvw ▸ SubValE_refl es k v hv
            | some fv =>
                cases fv with
                | vlist fs =>
                    simp only [insertFile, hl] at h
                    cases h
                    refine SubVal.dict (fun k hk => ?_) (fun k v w hv hw => ?_)
                    · rw [lookup_update]
                      cases hk2 : es.lookup k with
                      | none => rw [hk2] at hk; simp at hk
                      | some u => by_cases hke : "__files__" = k <;> simp [hke]
                    · rw [lookup_update, hv] at hw
                      by_cases hke : "__files__" = k
                      · subst hke
                        have hv2 : v = .vlist fs := by rw [hl] at hv; exact (Option.some.inj hv).symm
                        have hw2 : w = .vlist (fs ++ [p]) := by simpa using hw.symm
                        subst hv2; subst hw2
                        exact SubVal.list (fun a ha => List.mem_append_left _ ha)
                      · have hvw : v = w := Option.some.inj (by simpa [hke] using hw)
                        exact hvw ▸ SubValE_refl es k v hv
                | vdict ds =>
                    simp only [insertFile, hl] at h
                    exact Option.noConfusion h
  | p :: q :: rest, t, t' => fun h => by
      by_cases hp : p = ""
      · exact insert_mono (q :: rest) t t' (by simpa [insertLoop, hp] using h)
      · cases t with
        | vlist xs => simp [insertLoop, hp] at h
        | vdict es =>
            cases hl : es.lookup p with
            | none =>
                simp only [insertLoop, hp, if_false, hl, Option.map_eq_some'] at h
                rcases h with ⟨sub, _hsub, hsome⟩
                cases hsome
                refine SubVal.dict (fun k hk => ?_) (fun k v w hv hw => ?_)
                · rw [lookup_push]
                  cases hk2 : es.lookup k with
                  | none => rw [hk2] at hk; simp at hk
                  | some u => simp
                · rw [lookup_push, hv] at hw
                  have hvw : v = w := Option.some.inj hw
                  exact hvw ▸ SubValE_refl es k v hv
            | some child =>
                simp only [insertLoop, hp, if_false, hl, Option.map_eq_some'] at h
                rcases h with ⟨sub, hsub, hsome⟩
                cases hsome
                refine SubVal.dict (fun k hk => ?_) (fun k v w hv hw => ?_)
                · rw [lookup_update]
                  cases hk2 : es.lookup k with
                  | none => rw [hk2] at hk; simp at hk
                  | some u => by_cases hke : p = k <;> simp [hke]
                · rw [lookup_update, hv] at hw
                  by_cases hke : p = k
                  · subst hke
                    have hv2 : v = child := by rw [hl] at hv; exact (Option.some.inj hv).symm
                    have hw2 : w = sub := by simpa using hw.symm
                    subst hv2; subst hw2
                    exact insert_mono (q :: rest) v w hsub
                  · have hvw : v = w := Option.some.inj (by simpa [hke] using hw)
                    exact hvw ▸ SubValE_refl es k v hv

/-- Containment is preserved by the path observations: every directory name
and every file name visible at a key path of the smaller structure is visible
at the same key path of the larger one. -/
theorem SubVal_paths : ∀ (ds : List String) (t t' : PyVal), SubVal t t' →
    (∀ d, d ∈ dirsAt t ds → d ∈ dirsAt t' ds) ∧
    (∀ f, f ∈ filesAt t ds → f ∈ filesAt t' ds)
  | [], t, t' => fun hsub => by
      cases hsub with
      | list hmem =>
          constructor <;> intro x hx <;> simp [dirsAt, filesAt, subAt] at hx
      | dict hsome hrel =>
          rename_i es fs
          constructor
          · intro d hd
            simp only [dirsAt, subAt] at hd ⊢
            rw [List.mem_filter] at hd ⊢
            obtain ⟨hdk, hne⟩ := hd
            refine ⟨?_, hne⟩
            rw [mem_keys_iff_lookup] at hdk ⊢
            obtain ⟨v, hv⟩ := hdk
            have hs := hsome d (by rw [hv]; simp)
            rcases Option.isSome_iff_exists.mp hs with ⟨w, hw⟩
            exact ⟨w, hw⟩
          · intro f hf
            simp only [filesAt, subAt] at hf ⊢
            cases hl : es.lookup "__files__" with
            | none => rw [hl] at hf; simp at hf
            | some fv =>
                rw [hl] at hf
                cases fv with
                | vdict ds2 => simp at hf
                | vlist fs0 =>
                    have hs := hsome "__files__" (by rw [hl]; simp)
                    rcases Option.isSome_iff_exists.mp hs with ⟨w, hw⟩
                    have hvw := hrel "__files__" (.vlist fs0) w hl hw
                    cases hvw with
                    | list hmem2 =>
                        rename_i ys
                        rw [hw]
                        exact hmem2 f hf
  | d0 :: ds', t, t' => fun hsub => by
      cases hsub with
      | list hmem =>
          constructor <;> intro x hx <;> simp [dirsAt, filesAt, subAt] at hx
      | dict hsome hrel =>
          rename_i es fs
          cases hl : es.lookup d0 with
          | none =>
              constructor <;> intro x hx <;> simp [dirsAt, filesAt, subAt, hl] at hx
          | some v =>
              have hs := hsome d0 (by rw [hl]; simp)
              rcases Option.isSome_iff_exists.mp hs with ⟨w, hw⟩
              have hvw := hrel d0 v w hl hw
              have ih := SubVal_paths ds' v w hvw
              constructor
              · intro d hd
                have hd2 : d ∈ dirsAt v ds' := by simpa [dirsAt, subAt, hl] using hd
                have := ih.1 d hd2
                simpa [dirsAt, subAt, hw] using this
              · intro f hf
                have hf2 : f ∈ filesAt v ds' := by simpa [filesAt, subAt, hl] using hf
                have := ih.2 f hf2
                simpa [filesAt, subAt, hw] using this

/-- C10: the builder is monotone.  If building `ps` succeeds with tree `t`
and building `ps ++ [p]` succeeds with tree `t'`, then every directory name
and every file entry of `t` is present at the same position in `t'`:
processing a further path only ever adds entries. -/
theorem C10_build_monotone (rn : String) (ps : List String) (p : String) (t t' : PyVal)
    (h1 : analyzeStructure rn ps = some t)
    (h2 : analyzeStructure rn (ps ++ [p]) = some t') :
    SubVal t t' ∧
      ∀ ds, (∀ d, d ∈ dirsAt t ds → d ∈ dirsAt t' ds) ∧
            (∀ f, f ∈ filesAt t ds → f ∈ filesAt t' ds) := by
  have hstep : insertLoop t (stripRoot rn (pySplit p '/')) = some t' := by
    unfold analyzeStructure at h1 h2
    rw [List.foldlM_append, h1] at h2
    simpa [List.foldlM] using h2
  have hsub := insert_mono _ t t' hstep
  exact ⟨hsub, fun ds => SubVal_paths ds t t' hsub⟩

/-- C10 witness: with `ps = ["a/x.yml"]` and `p = "a/y.yml"`, the file
`"x.yml"` present under directory `"a"` in the first tree is still present
under `"a"` after the second path is processed. -/
theorem C10_build_monotone_witness :
    "x.yml" ∈ filesAt (.vdict (.cons "a" (.vdict
      (.cons "__files__" (.vlist ["x.yml", "y.yml"]) .nil)) .nil)) ["a"] :=
  ((C10_build_monotone "" ["a/x.yml"] "a/y.yml"
      (.vdict (.cons "a" (.vdict (.cons "__files__" (.vlist ["x.yml"]) .nil)) .nil))
      (.vdict (.cons "a" (.vdict (.cons "__files__" (.vlist ["x.yml", "y.yml"]) .nil)) .nil))
      (by decide) (by decide)).2 ["a"]).2 "x.yml" (by decide)

/-! Specification-side renderer (C4).  The definitions below transcribe the
spec's description of the rendering algorithm (§4.2): a read-only depth-first
traversal producing a flat sequence of lines — subdirectories first in
insertion order, then the files sorted lexicographically, with `└── ` on the
last emitted child of a level, `├── ` on the earlier ones, and bare names at
the root level. -/

/-- A value acceptable under the sentinel key: a nonempty list of names. -/
def filesVal : PyVal → Bool
  | .vlist fs => !fs.isEmpty
  | .vdict _ => false

mutual

/-- Well-formed builder tree: a dict in which the sentinel key `"__files__"`
(if present) holds a nonempty list, every other key holds a well-formed dict,
and keys are not duplicated. -/
def PyVal.wf : PyVal → Bool
  | .vlist _ => false
  | .vdict es => es.wfE

/-- Well-formedness of dict bindings (see `PyVal.wf`). -/
def Entries.wfE : Entries → Bool
  | .nil => true
  | .cons k v r =>
      (if k = "__files__" then filesVal v else v.wf)
      && !(r.keys.contains k) && r.wfE

end

/-- The file set of a node, as the spec reads it (empty when absent). -/
def specFiles (es : Entries) : List String :=
  match es.lookup "__files__" with
  | some (.vlist fs) => fs
  | _ => []

/-- The branch glyph: `└── ` for the last emitted child, `├── ` otherwise. -/
def specGlyph (isLast : Bool) : String := if isLast then "└── " else "├── "

/-- Whether any child directory remains among the bindings. -/
def hasDir : Entries → Bool
  | .nil => false
  | .cons k _ r => if k = "__files__" then hasDir r else true

/-- Spec step 3: for each file at index `j` of the sorted file sequence,
`isLastFile = (j is last file index)`; bare name at root level, otherwise
indent, glyph, name. -/
def specFileLines (fs : List String) (isRoot : Bool) (ind : String) : List String :=
  (List.range fs.length).map (fun j =>
    if isRoot then fs.getD j ""
    else ind ++ specGlyph (j == fs.length - 1) ++ fs.getD j "")

mutual

/-- Spec rendering of a node: directory entries (in insertion order, each
followed by its recursively rendered subtree) and then the sorted files. -/
def renderSpec : PyVal → Bool → String → List String
  | .vlist _, _, _ => []
  | .vdict es, isRoot, ind =>
      specDirLines es (specFiles es).isEmpty isRoot ind ++
      specFileLines (sortStrings (specFiles es)) isRoot ind

/-- Spec step 2: one header line per directory entry,
`isLastDir = (last directory index) AND (no files at this node)`, recursing
with the extended indent (`    ` after a last child, `│   ` otherwise,
fixed `    ` below the root level). -/
def specDirLines : Entries → Bool → Bool → String → List String
  | .nil, _, _, _ => []
  | .cons k v r, fsE, isRoot, ind =>
      if k = "__files__" then specDirLines r fsE isRoot ind
      else
        (if isRoot then k ++ "/" else ind ++ specGlyph (!(hasDir r) && fsE) ++ k ++ "/") ::
        (renderSpec v false
            (if isRoot then "    " else ind ++ (if !(hasDir r) && fsE then "    " else "│   ")) ++
         specDirLines r fsE isRoot ind)

end

/-! Auxiliary lemmas for the renderer refinement (C4). -/

theorem joinStr_cons (a : String) (l : List String) :
    joinStr (a :: l) = if l = [] then a else a ++ "\n" ++ joinStr l := by
  cases l <;> simp [joinStr]

theorem joinStr_append : ∀ (A B : List String), A ≠ [] → B ≠ [] →
    joinStr (A ++ B) = joinStr A ++ "\n" ++ joinStr B
  | [], _, hA, _ => absurd rfl hA
  | [a], B, _, hB => by
      rw [List.singleton_append, joinStr_cons, if_neg hB]
      simp [joinStr]
  | a :: a2 :: A2, B, _, hB => by
      have ih := joinStr_append (a2 :: A2) B (by simp) hB
      simp only [List.cons_append] at ih ⊢
      simp only [joinStr, ih]
      simp [String.append_assoc]

theorem insertSorted_ne_nil (x : String) : ∀ (l : List String), insertSorted x l ≠ []
  | [] => by simp [insertSorted]
  | y :: ys => by
      by_cases h : pyStrLt y x <;> simp [insertSorted, h]

theorem sortStrings_eq_nil_iff : ∀ (l : List String), sortStrings l = [] ↔ l = []
  | [] => by simp [sortStrings]
  | x :: xs => by simp [sortStrings, insertSorted_ne_nil]

theorem specFileLines_eq_nil_iff (fs : List String) (isRoot : Bool) (ind : String) :
    specFileLines fs isRoot ind = [] ↔ fs = [] := by
  cases fs <;> simp [specFileLines, List.range_succ_eq_map]

/-- The code's file loop produces exactly the spec's file lines. -/
theorem mkFileLines_spec : ∀ (fs : List String) (pfx ind : String),
    mkFileLines fs pfx ind = specFileLines fs (pfx == "") ind
  | [], pfx, ind => by simp [mkFileLines, specFileLines]
  | [f], pfx, ind => by
      by_cases hp : pfx = "" <;>
        simp [mkFileLines, specFileLines, List.range_succ_eq_map, specGlyph, hp]
  | f :: g :: t, pfx, ind => by
      have ih := mkFileLines_spec (g :: t) pfx ind
      have hrange : List.range (t.length + 1 + 1) =
          0 :: (List.range (t.length + 1)).map (· + 1) := List.range_succ_eq_map _
      simp only [mkFileLines, ih, specFileLines, List.length_cons, hrange,
        List.map_cons, List.map_map]
      by_cases hp : pfx = ""
      · subst hp
        simp
      · have hb : (pfx == "") = false := by simpa using hp
        simp [hp, hb, specGlyph]

theorem wfE_cons (k : String) (v : PyVal) (r : Entries)
    (h : (Entries.cons k v r).wfE = true) :
    (if k = "__files__" then filesVal v else v.wf) = true ∧
    r.keys.contains k = false ∧ r.wfE = true := by
  simp only [Entries.wfE, Bool.and_eq_true, Bool.not_eq_true'] at h
  exact ⟨h.1.1, h.1.2, h.2⟩

theorem wfE_nodup : ∀ (es : Entries), es.wfE = true → es.keys.Nodup
  | .nil, _ => by simp [Entries.keys]
  | .cons k v r, h => by
      obtain ⟨_, hc, hr⟩ := wfE_cons k v r h
      rw [Entries.keys, List.nodup_cons]
      refine ⟨?_, wfE_nodup r hr⟩
      simpa using hc

theorem endOfItems_eq_hasDir (r : Entries) (popped : Bool)
    (h1 : popped = true → "__files__" ∉ r.keys)
    (h2 : r.keys.count "__files__" ≤ 1) :
    endOfItems popped r = !(hasDir r) := by
  cases popped with
  | true =>
      cases r with
      | nil => simp [endOfItems, hasDir]
      | cons k v r2 =>
          have hk : k ≠ "__files__" := by
            intro he
            exact h1 rfl (by simp [Entries.keys, he])
          simp [endOfItems, hasDir, hk]
  | false =>
      cases r with
      | nil => simp [endOfItems, hasDir]
      | cons k v r2 =>
          cases r2 with
          | nil =>
              by_cases hk : k = "__files__" <;> simp [endOfItems, hasDir, hk]
          | cons k2 v2 r3 =>
              by_cases hk : k = "__files__"
              · by_cases hk2 : k2 = "__files__"
                · exfalso
                  simp [Entries.keys, List.count_cons, hk, hk2] at h2
                · simp [endOfItems, hasDir, hk, hk2]
              · simp [endOfItems, hasDir, hk]

theorem wf_files : ∀ (es : Entries), es.wfE = true →
    es.lookup "__files__" = none ∨
    ∃ fs, es.lookup "__files__" = some (.vlist fs) ∧ fs ≠ []
  | .nil, _ => Or.inl rfl
  | .cons k v r, h => by
      obtain ⟨hv, _, hr⟩ := wfE_cons k v r h
      by_cases hk : k = "__files__"
      · right
        rw [if_pos hk] at hv
        cases v with
        | vlist fs =>
            refine ⟨fs, by simp [Entries.lookup, hk], ?_⟩
            simpa [filesVal] using hv
        | vdict ds => simp [filesVal] at hv
      · rw [show (Entries.cons k v r).lookup "__files__" = r.lookup "__files__" by
          simp [Entries.lookup, hk]]
        exact wf_files r hr

theorem filesNames_spec (es : Entries) (h : es.wfE = true) :
    filesNames (es.lookup "__files__") = specFiles es := by
  rcases wf_files es h with hl | ⟨fs, hl, _⟩ <;> simp [filesNames, specFiles, hl]

theorem specDirLines_eq_nil_iff : ∀ (es : Entries) (fsE isRoot : Bool) (ind : String),
    specDirLines es fsE isRoot ind = [] ↔ hasDir es = false
  | .nil, _, _, _ => by simp [specDirLines, hasDir]
  | .cons k v r, fsE, isRoot, ind => by
      by_cases hk : k = "__files__"
      · simp [specDirLines, hasDir, hk, specDirLines_eq_nil_iff r fsE isRoot ind]
      · simp [specDirLines, hasDir, hk]

theorem renderSpec_ne_nil (t : PyVal) (hwf : t.wf = true) (htr : t.truthy = true)
    (isRoot : Bool) (ind : String) : renderSpec t isRoot ind ≠ [] := by
  cases t with
  | vlist xs => simp [PyVal.wf] at hwf
  | vdict es =>
      cases es with
      | nil => simp [PyVal.truthy] at htr
      | cons k v r =>
          rw [renderSpec]
          intro hnil
          rw [List.append_eq_nil] at hnil
          obtain ⟨hd, hf⟩ := hnil
          rw [specDirLines_eq_nil_iff] at hd
          have hk : k = "__files__" := by
            by_contra hk
            simp [hasDir, hk] at hd
          obtain ⟨hv, _, _⟩ := wfE_cons k v r (by simpa [PyVal.wf] using hwf)
          rw [if_pos hk] at hv
          cases v with
          | vdict ds => simp [filesVal] at hv
          | vlist fs =>
              have hfs : fs ≠ [] := by simpa [filesVal] using hv
              have hsf : specFiles (Entries.cons k (PyVal.vlist fs) r) = fs := by
                simp [specFiles, Entries.lookup, hk]
              rw [hsf, specFileLines_eq_nil_iff, sortStrings_eq_nil_iff] at hf
              exact hfs hf

theorem pfx_slash_beq (s k : String) : ((s ++ "/" ++ k) == "") = false := by
  have h : s ++ "/" ++ k ≠ "" := by
    intro he
    have hlen := congrArg String.length he
    simp [String.length_append] at hlen
    exact absurd hlen.1.2 (by decide)
  simpa using h

theorem renderSpec_empty_dict (b : Bool) (ind : String) :
    renderSpec (.vdict .nil) b ind = [] := by
  simp [renderSpec, specDirLines, specFiles, Entries.lookup, sortStrings, specFileLines]

mutual

/-- The code renderer agrees with the spec renderer on well-formed trees:
`_format_structure` returns exactly the join of the spec's line sequence. -/
theorem formatStructure_spec : ∀ (t : PyVal), t.wf = true →
    ∀ (pfx : String) (l : Bool) (ind : String),
    ∃ out, formatStructure t pfx l ind = some out ∧
      out.1 = joinStr (renderSpec t (pfx == "") ind)
  | .vlist _ => fun hwf => by simp [PyVal.wf] at hwf
  | .vdict es => fun hwf pfx l ind => by
      have hwfE : es.wfE = true := by simpa [PyVal.wf] using hwf
      obtain ⟨L, es1, hfd, hjoin, hnil⟩ :=
        formatDirs_spec es hwfE false (by simp)
          ((filesNames (es.lookup "__files__")).isEmpty) pfx ind
      have hfn := filesNames_spec es hwfE
      rw [hfn] at hfd hjoin hnil
      refine ⟨(joinStr (L ++ mkFileLines (sortStrings (specFiles es)) pfx ind), .vdict es1),
        ?_, ?_⟩
      · simp only [formatStructure, hfn, hfd]
      · show joinStr (L ++ mkFileLines (sortStrings (specFiles es)) pfx ind) =
          joinStr (renderSpec (.vdict es) (pfx == "") ind)
        rw [mkFileLines_spec, renderSpec]
        by_cases hFe : specFileLines (sortStrings (specFiles es)) (pfx == "") ind = []
        · rw [hFe, List.append_nil, List.append_nil, hjoin]
        · by_cases hLe : L = []
          · rw [hLe, hnil.mp hLe]
          · have hDe : specDirLines es (specFiles es).isEmpty (pfx == "") ind ≠ [] :=
              fun h => hLe (hnil.mpr h)
            rw [joinStr_append L _ hLe hFe, joinStr_append _ _ hDe hFe, hjoin]

/-- The directory loop of `_format_structure` agrees (up to joining) with the
spec's directory lines, for well-formed bindings; `popped` may only be set
once the sentinel binding is gone. -/
theorem formatDirs_spec : ∀ (es : Entries), es.wfE = true → ∀ (popped : Bool),
    (popped = true → "__files__" ∉ es.keys) → ∀ (fsE : Bool) (pfx ind : String),
    ∃ L es1, formatDirs es popped fsE pfx ind = some (L, es1) ∧
      joinStr L = joinStr (specDirLines es fsE (pfx == "") ind) ∧
      (L = [] ↔ specDirLines es fsE (pfx == "") ind = [])
  | .nil => fun _ popped _ fsE pfx ind =>
      ⟨[], .nil, rfl, rfl, by simp [specDirLines]⟩
  | .cons k v r => fun hwfE popped hinv fsE pfx ind => by
      obtain ⟨hv, hc, hr⟩ := wfE_cons k v r hwfE
      by_cases hpop : popped = false ∧ k = "__files__"
      · obtain ⟨hp0, hk⟩ := hpop
        have hnotin : ∀ (b : Bool), b = true → "__files__" ∉ r.keys := fun _ _ => by
          subst hk
          simpa using hc
        obtain ⟨L, r1, hfd, hjoin, hnil⟩ :=
          formatDirs_spec r hr true (hnotin true) fsE pfx ind
        have hspec : specDirLines (Entries.cons k v r) fsE (pfx == "") ind =
            specDirLines r fsE (pfx == "") ind := by
          rw [specDirLines, if_pos hk]
        refine ⟨L, r1, ?_, by rw [hspec]; exact hjoin, by rw [hspec]; exact hnil⟩
        simp only [formatDirs, if_pos (And.intro hp0 hk)]
        exact hfd
      · have hkne : k ≠ "__files__" := by
          rcases not_and_or.mp hpop with h | h
          · have hp1 : popped = true := by
              revert h
              cases popped <;> simp
            intro hke
            exact (hinv hp1) (by simp [Entries.keys, hke])
          · exact h
        have hinv_r : popped = true → "__files__" ∉ r.keys := fun hp1 => by
          have hm := hinv hp1
          simp [Entries.keys] at hm
          exact hm.2
        have hcount : r.keys.count "__files__" ≤ 1 :=
          List.nodup_iff_count_le_one.mp (wfE_nodup r hr) _
        have hend : endOfItems popped r = !(hasDir r) :=
          endOfItems_eq_hasDir r popped hinv_r hcount
        have hvwf : v.wf = true := by
          rw [if_neg hkne] at hv
          exact hv
        obtain ⟨RL, r1, hfdr, hjr, hnr⟩ := formatDirs_spec r hr popped hinv_r fsE pfx ind
        have hline : (if pfx = "" then k ++ "/"
              else ind ++ (if endOfItems popped r && fsE then "└── " else "├── ") ++ k ++ "/") =
            (if (pfx == "") = true then k ++ "/"
              else ind ++ specGlyph (!(hasDir r) && fsE) ++ k ++ "/") := by
          rw [hend]
          by_cases hp : pfx = "" <;> simp [hp, specGlyph]
        have hind : (if pfx = "" then "    "
              else ind ++ (if endOfItems popped r && fsE then "    " else "│   ")) =
            (if (pfx == "") = true then "    "
              else ind ++ (if !(hasDir r) && fsE then "    " else "│   ")) := by
          rw [hend]
          by_cases hp : pfx = "" <;> simp [hp]
        have hspec : specDirLines (Entries.cons k v r) fsE (pfx == "") ind =
            (if (pfx == "") = true then k ++ "/"
              else ind ++ specGlyph (!(hasDir r) && fsE) ++ k ++ "/") ::
            (renderSpec v false (if (pfx == "") = true then "    "
                else ind ++ (if !(hasDir r) && fsE then "    " else "│   ")) ++
             specDirLines r fsE (pfx == "") ind) := by
          rw [specDirLines, if_neg hkne]
        by_cases htr : v.truthy = true
        · obtain ⟨out, hfsv, hout1⟩ := formatStructure_spec v hvwf (pfx ++ "/" ++ k)
            (endOfItems popped r && fsE)
            (if pfx = "" then "    " else ind ++ (if endOfItems popped r && fsE then "    " else "│   "))
          rw [pfx_slash_beq] at hout1
          have hsubeq : out.1 = joinStr (renderSpec v false
              (if (pfx == "") = true then "    "
                else ind ++ (if !(hasDir r) && fsE then "    " else "│   "))) := by
            rw [← hind]
            exact hout1
          have hsubne : renderSpec v false
              (if (pfx == "") = true then "    "
                else ind ++ (if !(hasDir r) && fsE then "    " else "│   ")) ≠ [] :=
            renderSpec_ne_nil v hvwf htr false _
          refine ⟨(if pfx = "" then k ++ "/"
              else ind ++ (if endOfItems popped r && fsE then "└── " else "├── ") ++ k ++ "/") ::
              ([out.1] ++ RL), .cons k out.2 r1, ?_, ?_, ?_⟩
          · simp only [formatDirs, if_neg hpop, htr, if_true, hfsv, Option.map_some', hfdr]
            rfl
          · rw [hspec, joinStr_cons, joinStr_cons, if_neg (by simp), if_neg
              (fun hap => hsubne (List.append_eq_nil.mp hap).1), hline]
            have htail : joinStr ([out.1] ++ RL) =
                joinStr (renderSpec v false (if (pfx == "") = true then "    "
                  else ind ++ (if !(hasDir r) && fsE then "    " else "│   ")) ++
                 specDirLines r fsE (pfx == "") ind) := by
              by_cases hRL : RL = []
              · rw [hRL, hnr.mp hRL, List.append_nil, List.append_nil]
                simpa [joinStr] using hsubeq
              · have hsr : specDirLines r fsE (pfx == "") ind ≠ [] :=
                  fun h => hRL (hnr.mpr h)
                rw [joinStr_append [out.1] RL (by simp) hRL,
                    joinStr_append _ _ hsubne hsr, hjr]
                simp [joinStr, hsubeq]
            rw [htail]
          · rw [hspec]
            simp
        · have htrf : v.truthy = false := by
            revert htr
            cases v.truthy <;> simp
          have hvnil : v = .vdict .nil := by
            cases v with
            | vlist xs => simp [PyVal.wf] at hvwf
            | vdict es2 =>
                cases es2 with
                | nil => rfl
                | cons a b c => simp [PyVal.truthy] at htrf
          have hsub0 : renderSpec v false (if (pfx == "") = true then "    "
              else ind ++ (if !(hasDir r) && fsE then "    " else "│   ")) = [] := by
            rw [hvnil]
            exact renderSpec_empty_dict false _
          refine ⟨(if pfx = "" then k ++ "/"
              else ind ++ (if endOfItems popped r && fsE then "└── " else "├── ") ++ k ++ "/") ::
              ([] ++ RL), .cons k v r1, ?_, ?_, ?_⟩
          · simp only [formatDirs, if_neg hpop, htrf, Bool.false_eq_true, if_false, hfdr]
            rfl
          · rw [hspec, hsub0, List.nil_append, List.nil_append, joinStr_cons, joinStr_cons,
                hline]
            by_cases hRL : RL = []
            · rw [if_pos hRL, if_pos (hnr.mp hRL)]
            · rw [if_neg hRL, if_neg (fun h => hRL (hnr.mpr h)), hjr]
          · rw [hspec]
            simp

end

/-- C4: on every well-formed tree the code renderer emits, at every node, all
subdirectory lines (in dict insertion order — the order directory names were
first created while building) before any file line, files sorted by the
code-point order `pyStrLt`, with `└── ` exactly on the last emitted child of
a level and `├── ` on every earlier one, and bare first-level entries: its
output is precisely the join of the spec line sequence `renderSpec`, which is
defined with exactly that shape.  In particular files `["z.yml", "a.yml"]` at
one node with no subdirectories render as `├── a.yml` then `└── z.yml`. -/
theorem C4_render_ordering :
    (∀ (t : PyVal), t.wf = true → ∀ (pfx : String) (l : Bool) (ind : String),
      (formatStructure t pfx l ind).map Prod.fst =
        some (joinStr (renderSpec t (pfx == "") ind))) ∧
    (analyzeStructure "" ["sub/z.yml", "sub/a.yml"]).bind
        (fun t => (renderStructure t).map Prod.fst) =
      some (joinStr ["sub/", "    ├── a.yml", "    └── z.yml"]) := by
  constructor
  · intro t hwf pfx l ind
    obtain ⟨out, hfs, hout⟩ := formatStructure_spec t hwf pfx l ind
    rw [hfs, Option.map_some', hout]
  · decide

/-- C4 witness: the renderer/spec agreement applied to the concrete
well-formed tree built from `["a/b"]`. -/
theorem C4_render_ordering_witness :
    (formatStructure
        (.vdict (.cons "a" (.vdict (.cons "__files__" (.vlist ["b"]) .nil)) .nil))
        "" true "").map Prod.fst =
      some (joinStr (renderSpec
        (.vdict (.cons "a" (.vdict (.cons "__files__" (.vlist ["b"]) .nil)) .nil))
        ("" == "") "")) :=
  C4_render_ordering.1
    (.vdict (.cons "a" (.vdict (.cons "__files__" (.vlist ["b"]) .nil)) .nil))
    (by decide) "" true ""
